import Mathlib

set_option linter.unusedSectionVars false

/-!
# Verification of the tenpy MPS core specification

A shallow embedding of the matrix-product-state (MPS) core described by the
repository's specification.  The repository ships only the test suite
(`src/tests/test_mps.py`) and the stub `src/tenpy/algorithms/tebd.py`; the MPS
implementation itself is not under `src/`, so the definitions below are
modelled from the specification's own description of the data model and
operations (exact scalar arithmetic over a commutative star ring in place of
floating point, chains with the `finite` boundary convention of trivial
boundary bonds).

The embedding covers: the canonical-form MPS data structure (tensors `B`,
bond dimensions `chi`, singular values `S`, the `norm` scalar), the
environment contraction engine (`LP`/`RP`/`full_contraction`), state addition
as a block direct sum, product-state and singlet construction, entanglement
entropy from singular values, fermionic sign bookkeeping for
`expectation_value_term` and `correlation_function`, charge bookkeeping, site
grouping, and the contract of `compress`.
-/

namespace Tenpy

/-- A finite-chain MPS of `L` sites with local physical dimension `d` over the
scalar ring `K`: per-bond dimensions `chi`, local rank-3 tensors `B`
(left bond, physical, right bond — indices beyond the declared bond dimension
are never summed over), per-bond singular values `S`, and the `norm` scalar
carried alongside the unit-normalized canonical tensors.  Modelled from the
spec: the implementation of the MPS class is not under `src/`, so the data
model follows §3 of the specification with exact scalars. -/
structure MPS (K : Type) (L d : ℕ) where
  chi : ℕ → ℕ
  B : ℕ → ℕ → Fin d → ℕ → K
  S : ℕ → ℕ → ℝ
  norm : K

variable {K : Type} [CommRing K] [StarRing K] {L d : ℕ}

/-- Left environment: `LP bra ket n a b` is the contraction of the bra
(conjugated) against the ket over sites `0 … n-1`, with open right bond
indices `a` (bra side) and `b` (ket side); bond `0` is the trivial boundary
bond of a finite chain. -/
def LP (bra ket : MPS K L d) : ℕ → ℕ → ℕ → K
  | 0, a, b => if a = 0 ∧ b = 0 then 1 else 0
  | n+1, a2, b2 =>
      ∑ a ∈ Finset.range (bra.chi n), ∑ b ∈ Finset.range (ket.chi n),
        ∑ p : Fin d, star (bra.B n a p a2) * (ket.B n b p b2 * LP bra ket n a b)

/-- Right environment with explicit fuel: `RPk bra ket k a b` contracts the
last `k` sites (sites `L-k … L-1`), with open left bond indices `a`/`b` at
bond `L - k`. -/
def RPk (bra ket : MPS K L d) : ℕ → ℕ → ℕ → K
  | 0, a, b => if a = 0 ∧ b = 0 then 1 else 0
  | k+1, a, b =>
      ∑ a2 ∈ Finset.range (bra.chi (L - k)), ∑ b2 ∈ Finset.range (ket.chi (L - k)),
        ∑ p : Fin d, star (bra.B (L - (k+1)) a p a2) * (ket.B (L - (k+1)) b p b2 * RPk bra ket k a2 b2)

/-- Right environment at bond `n`: the contraction of sites `n … L-1`. -/
def RP (bra ket : MPS K L d) (n : ℕ) : ℕ → ℕ → K := RPk bra ket (L - n)

/-- Overlap `⟨bra|ket⟩`: the full end-to-end contraction of the conjugated
bra against the ket. -/
def overlap (bra ket : MPS K L d) : K := LP bra ket L 0 0

/-- An environment caching partial contractions between a fixed bra and ket. -/
structure MPSEnvironment (K : Type) (L d : ℕ) where
  bra : MPS K L d
  ket : MPS K L d

/-- Combine the left and the right partial contraction at bond `n` into the
full overlap. -/
def MPSEnvironment.full_contraction (env : MPSEnvironment K L d) (n : ℕ) : K :=
  ∑ a ∈ Finset.range (env.bra.chi n), ∑ b ∈ Finset.range (env.ket.chi n),
    LP env.bra env.ket n a b * RP env.bra env.ket n a b

/-- A product state from basis labels `s`: the bond-dimension-1 chain whose
tensor at site `i` selects basis state `s i`.  Modelled from the spec:
`from_product_state` builds a bond-dimension-1 chain (restricted here to basis
labels, which is what the claims quantify over). -/
def MPS.from_product_state (s : ℕ → Fin d) : MPS K L d where
  chi := fun _ => 1
  B := fun i a p b => if a = 0 ∧ b = 0 ∧ p = s i then 1 else 0
  S := fun _ _ => 1
  norm := 1

/-- Deviation of the right-orthonormality check from the identity at site `n`,
entry `(a, a')`; `norm_test` reports these deviations per bond. -/
def MPS.norm_test_dev (ψ : MPS K L d) (n a a' : ℕ) : K :=
  (∑ b ∈ Finset.range (ψ.chi (n+1)), ∑ p : Fin d, ψ.B n a p b * star (ψ.B n a' p b))
    - if a = a' then 1 else 0

/-- Von Neumann entanglement entropy of a singular-value vector of length `χ`. -/
noncomputable def entropyOf (χ : ℕ) (Sv : ℕ → ℝ) : ℝ :=
  -∑ i ∈ Finset.range χ, (Sv i)^2 * Real.log ((Sv i)^2)

/-- Entanglement entropy at bond `b`, derived from the bond singular values. -/
noncomputable def MPS.entanglement_entropy (ψ : MPS K L d) (b : ℕ) : ℝ :=
  entropyOf (ψ.chi b) (ψ.S b)

/-- Bond dimensions of a basis product state are all 1. -/
lemma from_product_state_chi (s : ℕ → Fin d) (b : ℕ) :
    (MPS.from_product_state (K := K) (L := L) s).chi b = 1 := rfl

/-- Tensor entries of a basis product state. -/
lemma from_product_state_B (s : ℕ → Fin d) (i a : ℕ) (p : Fin d) (b : ℕ) :
    (MPS.from_product_state (K := K) (L := L) s).B i a p b
      = if a = 0 ∧ b = 0 ∧ p = s i then 1 else 0 := rfl

/-- Singular values of a basis product state. -/
lemma from_product_state_S (s : ℕ → Fin d) (b i : ℕ) :
    (MPS.from_product_state (K := K) (L := L) s).S b i = 1 := rfl

/-- Summing the product of two basis indicators over the physical index. -/
lemma sum_ite_basis (u v : Fin d) :
    (∑ p : Fin d, (if p = u then (1:K) else 0) * (if p = v then 1 else 0))
      = if u = v then 1 else 0 := by
  rcases Classical.em (u = v) with h | h
  · subst h
    simp [Finset.sum_ite_eq']
  · rw [if_neg h]
    apply Finset.sum_eq_zero
    intro p _
    rcases Classical.em (p = u) with hp | hp
    · subst hp
      simp [h]
    · simp [hp]

section EnvironmentLemmas

/-- Swapping the outer two of five nested finite sums. -/
private lemma sum5_swap (s1 s2 s3 s4 : Finset ℕ)
    (g : ℕ → ℕ → ℕ → ℕ → Fin d → K) :
    (∑ a ∈ s1, ∑ b ∈ s2, ∑ a2 ∈ s3, ∑ b2 ∈ s4, ∑ p : Fin d, g a b a2 b2 p)
      = ∑ a2 ∈ s3, ∑ b2 ∈ s4, ∑ a ∈ s1, ∑ b ∈ s2, ∑ p : Fin d, g a b a2 b2 p := by
  calc
    (∑ a ∈ s1, ∑ b ∈ s2, ∑ a2 ∈ s3, ∑ b2 ∈ s4, ∑ p : Fin d, g a b a2 b2 p)
        = ∑ a ∈ s1, ∑ a2 ∈ s3, ∑ b ∈ s2, ∑ b2 ∈ s4, ∑ p : Fin d, g a b a2 b2 p :=
      Finset.sum_congr rfl fun a _ => Finset.sum_comm
    _ = ∑ a2 ∈ s3, ∑ a ∈ s1, ∑ b ∈ s2, ∑ b2 ∈ s4, ∑ p : Fin d, g a b a2 b2 p :=
      Finset.sum_comm
    _ = ∑ a2 ∈ s3, ∑ a ∈ s1, ∑ b2 ∈ s4, ∑ b ∈ s2, ∑ p : Fin d, g a b a2 b2 p :=
      Finset.sum_congr rfl fun a2 _ => Finset.sum_congr rfl fun a _ => Finset.sum_comm
    _ = ∑ a2 ∈ s3, ∑ b2 ∈ s4, ∑ a ∈ s1, ∑ b ∈ s2, ∑ p : Fin d, g a b a2 b2 p :=
      Finset.sum_congr rfl fun a2 _ => Finset.sum_comm

/-- Moving the cut of `full_contraction` one bond to the right does not change
its value: contracting site `n` into the left environment instead of the right
one is the associativity of the chain contraction. -/
lemma full_contraction_step (env : MPSEnvironment K L d) (n : ℕ) (hn : n < L) :
    env.full_contraction n = env.full_contraction (n+1) := by
  obtain ⟨bra, ket⟩ := env
  show (∑ a ∈ Finset.range (bra.chi n), ∑ b ∈ Finset.range (ket.chi n),
          LP bra ket n a b * RP bra ket n a b)
      = ∑ a2 ∈ Finset.range (bra.chi (n+1)), ∑ b2 ∈ Finset.range (ket.chi (n+1)),
          LP bra ket (n+1) a2 b2 * RP bra ket (n+1) a2 b2
  have h1 : L - n = (L - (n+1)) + 1 := by omega
  have h2 : L - (L - (n+1)) = n + 1 := by omega
  have h3 : L - ((L - (n+1)) + 1) = n := by omega
  unfold RP
  rw [h1]
  simp only [RPk, h2, h3, LP]
  simp only [Finset.mul_sum, Finset.sum_mul]
  rw [sum5_swap]
  refine Finset.sum_congr rfl fun a2 _ => Finset.sum_congr rfl fun b2 _ => ?_
  refine Finset.sum_congr rfl fun a _ => Finset.sum_congr rfl fun b _ => ?_
  refine Finset.sum_congr rfl fun p _ => ?_
  ring

/-- The combined left/right contraction at any bond `n ≤ L` equals the full
overlap (the boundary bonds being trivial). -/
lemma full_contraction_eq_overlap (env : MPSEnvironment K L d)
    (hb : 0 < env.bra.chi L) (hk : 0 < env.ket.chi L)
    (n : ℕ) (hn : n ≤ L) :
    env.full_contraction n = overlap env.bra env.ket := by
  have base : env.full_contraction L = overlap env.bra env.ket := by
    unfold MPSEnvironment.full_contraction RP overlap
    simp only [Nat.sub_self, RPk]
    rw [Finset.sum_eq_single 0]
    · rw [Finset.sum_eq_single 0]
      · simp
      · intro b _ hb0
        simp [hb0]
      · intro h
        exact absurd (Finset.mem_range.mpr hk) h
    · intro a _ ha0
      apply Finset.sum_eq_zero
      intro b _
      simp [ha0]
    · intro h
      exact absurd (Finset.mem_range.mpr hb) h
  have step : ∀ k, k ≤ L → env.full_contraction (L - k) = overlap env.bra env.ket := by
    intro k
    induction k with
    | zero => intro _; simpa using base
    | succ k ih =>
      intro hk1
      have hlt : L - (k+1) < L := by omega
      have heq : L - (k+1) + 1 = L - k := by omega
      rw [full_contraction_step env _ hlt, heq]
      exact ih (by omega)
  have : n = L - (L - n) := by omega
  rw [this]
  exact step (L - n) (by omega)

end EnvironmentLemmas

section ProductState

/-- Left environments between two basis product states: the identity on the
trivial bond as long as the labels agree on all contracted sites, zero
otherwise. -/
lemma LP_from_product_state (s t : ℕ → Fin d) (n a b : ℕ) :
    LP (MPS.from_product_state (K := K) (L := L) s) (MPS.from_product_state t) n a b
      = if a = 0 ∧ b = 0 ∧ ∀ i < n, s i = t i then 1 else 0 := by
  induction n generalizing a b with
  | zero => simp [LP]
  | succ n ih =>
    simp only [LP, from_product_state_chi, from_product_state_B, Finset.sum_range_one, ih,
      eq_self_iff_true, true_and]
    by_cases h : ∀ i < n, s i = t i
    · by_cases ha : a = 0
      · by_cases hb : b = 0
        · subst ha
          subst hb
          simp only [eq_self_iff_true, true_and]
          by_cases he : s n = t n
          · have hall : ∀ i < n + 1, s i = t i := by
              intro i hi
              rcases Nat.lt_succ_iff_lt_or_eq.mp hi with h1 | h1
              · exact h i h1
              · rw [h1]
                exact he
            rw [if_pos hall]
            have key : (∑ p : Fin d, (if p = s n then (1:K) else 0) * (if p = t n then 1 else 0))
                = 1 := by
              rw [sum_ite_basis, if_pos he]
            refine Eq.trans ?_ key
            refine Finset.sum_congr rfl fun p _ => ?_
            rw [if_pos h]
            simp [apply_ite (star : K → K)]
          · have hnall : ¬ (∀ i < n + 1, s i = t i) :=
              fun hc => he (hc n (Nat.lt_succ_self n))
            rw [if_neg hnall]
            apply Finset.sum_eq_zero
            intro p _
            rw [if_pos h]
            rcases Classical.em (p = s n) with hp | hp
            · subst hp
              simp [he, apply_ite (star : K → K)]
            · simp [hp, apply_ite (star : K → K)]
        · simp [hb]
      · simp [ha]
    · have hnall : ¬ (∀ i < n + 1, s i = t i) := by
        intro hc
        exact h fun i hi => hc i (Nat.lt_succ_of_lt hi)
      simp [h, hnall]

/-- A basis product state has unit overlap with itself. -/
lemma overlap_from_product_state_self (s : ℕ → Fin d) :
    overlap (MPS.from_product_state (K := K) (L := L) s) (MPS.from_product_state s) = 1 := by
  unfold overlap
  rw [LP_from_product_state]
  simp

/-- Two basis product states differing at a site of the chain are orthogonal. -/
lemma overlap_from_product_state_ne (s t : ℕ → Fin d) (i : ℕ) (hi : i < L)
    (hst : s i ≠ t i) :
    overlap (MPS.from_product_state (K := K) (L := L) s) (MPS.from_product_state t) = 0 := by
  unfold overlap
  rw [LP_from_product_state]
  have : ¬ (∀ j < L, s j = t j) := fun hc => hst (hc i hi)
  simp [this]

end ProductState

/-- C8: a product state built from basis labels has `overlap(self, self) = 1`,
zero entanglement entropy at every bond, and an exactly vanishing `norm_test`
deviation (per-bond orthogonality check) — the exact-arithmetic form of
"below the fixed small tolerance". -/
theorem C8_product_state (s : ℕ → Fin d) :
    overlap (MPS.from_product_state (K := K) (L := L) s) (MPS.from_product_state s) = 1
      ∧ (∀ b, (MPS.from_product_state (K := K) (L := L) s).entanglement_entropy b = 0)
      ∧ (∀ n, (MPS.from_product_state (K := K) (L := L) s).norm_test_dev n 0 0 = 0) := by
  refine ⟨overlap_from_product_state_self s, ?_, ?_⟩
  · intro b
    simp [MPS.entanglement_entropy, entropyOf, MPS.from_product_state]
  · intro n
    unfold MPS.norm_test_dev
    simp only [from_product_state_chi, from_product_state_B, Finset.sum_range_one,
      eq_self_iff_true, true_and, if_true]
    have hsum : (∑ p : Fin d,
        (if p = s n then (1:K) else 0) * star (if p = s n then (1:K) else 0)) = 1 := by
      have h1 : ∀ p : Fin d,
          (if p = s n then (1:K) else 0) * star (if p = s n then (1:K) else 0)
            = if p = s n then 1 else 0 := by
        intro p
        rcases Classical.em (p = s n) with hp | hp <;>
          simp [hp, apply_ite (star : K → K)]
      rw [Finset.sum_congr rfl fun p _ => h1 p]
      simp [Finset.sum_ite_eq']
    rw [hsum]
    simp

/-- C5: combining the cached left and right environment contractions of an
`MPSEnvironment` whose bra and ket are the same properly normalized MPS yields
exactly 1 at every cut position in the chain. -/
theorem C5_full_contraction_one (env : MPSEnvironment K L d)
    (hsame : env.bra = env.ket) (hnorm : overlap env.ket env.ket = 1)
    (hχ : 0 < env.ket.chi L) (i : ℕ) (hi : i ≤ L) :
    env.full_contraction i = 1 := by
  rw [full_contraction_eq_overlap env (by rw [hsame]; exact hχ) hχ i hi, hsame, hnorm]

/-- Witness for C5 at a concrete normalized two-site product state over `ℤ`. -/
theorem C5_witness :
    (MPSEnvironment.full_contraction
      ⟨MPS.from_product_state (K := ℤ) (L := 2) (d := 2) (fun _ => 0),
       MPS.from_product_state (fun _ => 0)⟩ 1) = 1 :=
  C5_full_contraction_one _ rfl (overlap_from_product_state_self _) (by decide) 1 (by decide)

section AddStates

/-- Conjugating a left environment swaps the roles of bra and ket. -/
lemma LP_star (bra ket : MPS K L d) : ∀ n a b,
    star (LP bra ket n a b) = LP ket bra n b a := by
  intro n
  induction n with
  | zero =>
    intro a b
    simp [LP, apply_ite (star : K → K), and_comm]
  | succ n ih =>
    intro a b
    simp only [LP, star_sum, star_mul', star_star, ih]
    rw [Finset.sum_comm]
    refine Finset.sum_congr rfl fun b0 _ => Finset.sum_congr rfl fun a0 _ => ?_
    refine Finset.sum_congr rfl fun p _ => ?_
    ring

/-- Overlaps are conjugate-symmetric in bra and ket. -/
lemma overlap_star (bra ket : MPS K L d) :
    star (overlap bra ket) = overlap ket bra := LP_star bra ket L 0 0

/-- Width of the first direct-sum block at bond `b` (the boundary bonds of a
finite chain stay trivial). -/
def bcut (ψ : MPS K L d) (b : ℕ) : ℕ := if b = 0 ∨ b = L then 1 else ψ.chi b

/-- Offset of the second direct-sum block at bond `b`. -/
def boff (ψ : MPS K L d) (b : ℕ) : ℕ := if b = 0 ∨ b = L then 0 else ψ.chi b

lemma bcut_eq_chi (ψ : MPS K L d) (h0 : ψ.chi 0 = 1) (hL : ψ.chi L = 1) (b : ℕ) :
    bcut ψ b = ψ.chi b := by
  unfold bcut
  split_ifs with hb
  · rcases hb with rfl | rfl
    · exact h0.symm
    · exact hL.symm
  · rfl

lemma boff_interior (ψ : MPS K L d) (b : ℕ) (hb0 : b ≠ 0) (hbL : b ≠ L) :
    boff ψ b = ψ.chi b := by
  unfold boff
  rw [if_neg]
  rintro (h | h)
  · exact hb0 h
  · exact hbL h

/-- State addition `alpha·self + beta·other` as a block direct sum of the two
tensor chains, the coefficients entering through the first site and the
boundary bonds of the finite chain staying trivial.  Modelled from the spec:
`add(other, alpha, beta)` forms the block direct sum without truncation; the
result is generally not in canonical form (its `S` field is not meaningful). -/
def MPS.add (ψ1 ψ2 : MPS K L d) (α β : K) : MPS K L d where
  chi := fun b => if b = 0 ∨ b = L then 1 else ψ1.chi b + ψ2.chi b
  B := fun i a p b =>
    (if a < bcut ψ1 i ∧ b < bcut ψ1 (i+1) then (if i = 0 then α else 1) * ψ1.B i a p b else 0)
      + (if boff ψ1 i ≤ a ∧ boff ψ1 (i+1) ≤ b then
          (if i = 0 then β else 1) * ψ2.B i (a - boff ψ1 i) p (b - boff ψ1 (i+1)) else 0)
  S := fun _ _ => 0
  norm := 1

lemma add_chi (ψ1 ψ2 : MPS K L d) (α β : K) (b : ℕ) :
    (ψ1.add ψ2 α β).chi b = if b = 0 ∨ b = L then 1 else ψ1.chi b + ψ2.chi b := rfl

lemma add_B (ψ1 ψ2 : MPS K L d) (α β : K) (i a : ℕ) (p : Fin d) (b : ℕ) :
    (ψ1.add ψ2 α β).B i a p b
      = (if a < bcut ψ1 i ∧ b < bcut ψ1 (i+1) then (if i = 0 then α else 1) * ψ1.B i a p b else 0)
        + (if boff ψ1 i ≤ a ∧ boff ψ1 (i+1) ≤ b then
            (if i = 0 then β else 1) * ψ2.B i (a - boff ψ1 i) p (b - boff ψ1 (i+1)) else 0) := rfl

/-- Splitting a sum over `range (m + k)` into the first block and the shifted
second block. -/
lemma sum_range_add_split (m k : ℕ) (f : ℕ → K) :
    ∑ i ∈ Finset.range (m + k), f i
      = ∑ i ∈ Finset.range m, f i + ∑ j ∈ Finset.range k, f (m + j) := by
  rw [Finset.range_eq_Ico,
    ← Finset.sum_Ico_consecutive f (Nat.zero_le m) (Nat.le_add_right m k)]
  congr 1
  rw [Finset.sum_Ico_eq_sum_range]
  simp [add_comm]

/-- Invariant of the direct-sum contraction at interior bonds: against an
arbitrary bra, the left environment of the block direct sum splits into the
two component environments, the first-site coefficients attached. -/
lemma LP_add_inv (φ ψ1 ψ2 : MPS K L d) (α β : K)
    (h10 : ψ1.chi 0 = 1) (h20 : ψ2.chi 0 = 1) :
    ∀ n, 1 ≤ n → n ≤ L - 1 → ∀ a b,
      LP φ (ψ1.add ψ2 α β) n a b
        = if b < ψ1.chi n then α * LP φ ψ1 n a b
          else β * LP φ ψ2 n a (b - ψ1.chi n) := by
  intro n
  induction n with
  | zero =>
    intro h
    exact absurd h (by omega)
  | succ n ih =>
    intro h1 h2 a b
    by_cases hn : n = 0
    · subst hn
      have hL2 : 2 ≤ L := by omega
      have h1ne : (1:ℕ) ≠ L := by omega
      have e1 : bcut ψ1 0 = 1 := by simp [bcut]
      have e2 : bcut ψ1 1 = ψ1.chi 1 := by simp [bcut, h1ne]
      have e3 : boff ψ1 0 = 0 := by simp [boff]
      have e4 : boff ψ1 1 = ψ1.chi 1 := by simp [boff, h1ne]
      by_cases hb : b < ψ1.chi 1
      · rw [if_pos hb]
        have eB : ∀ p : Fin d, (ψ1.add ψ2 α β).B 0 0 p b = α * ψ1.B 0 0 p b := by
          intro p
          rw [add_B, e1, e2, e3, e4]
          rw [if_pos (show 0 < 1 ∧ b < ψ1.chi 1 from ⟨Nat.zero_lt_one, hb⟩)]
          rw [if_neg (show ¬ ((0:ℕ) ≤ 0 ∧ ψ1.chi 1 ≤ b) by omega)]
          simp
        simp only [LP, add_chi, eq_self_iff_true, true_or, if_true,
          Finset.sum_range_one, h10, Finset.mul_sum]
        refine Finset.sum_congr rfl fun a0 _ => ?_
        refine Finset.sum_congr rfl fun p _ => ?_
        rw [eB p]
        ring
      · rw [if_neg hb]
        have eB : ∀ p : Fin d,
            (ψ1.add ψ2 α β).B 0 0 p b = β * ψ2.B 0 0 p (b - ψ1.chi 1) := by
          intro p
          rw [add_B, e1, e2, e3, e4]
          rw [if_neg (show ¬ (0 < 1 ∧ b < ψ1.chi 1) by omega)]
          rw [if_pos (show (0:ℕ) ≤ 0 ∧ ψ1.chi 1 ≤ b from ⟨Nat.le_refl 0, by omega⟩)]
          simp
        simp only [LP, add_chi, eq_self_iff_true, true_or, if_true,
          Finset.sum_range_one, h20, Finset.mul_sum]
        refine Finset.sum_congr rfl fun a0 _ => ?_
        refine Finset.sum_congr rfl fun p _ => ?_
        rw [eB p]
        ring
    · have hn1 : 1 ≤ n := by omega
      have hn2 : n ≤ L - 1 := by omega
      have hnL : n ≠ L := by omega
      have hsn : n + 1 ≠ L := by omega
      have eb1 : bcut ψ1 n = ψ1.chi n := by simp [bcut, hn, hnL]
      have eb2 : bcut ψ1 (n+1) = ψ1.chi (n+1) := by simp [bcut, hsn]
      have eo1 : boff ψ1 n = ψ1.chi n := by simp [boff, hn, hnL]
      have eo2 : boff ψ1 (n+1) = ψ1.chi (n+1) := by simp [boff, hsn]
      have ec : (ψ1.add ψ2 α β).chi n = ψ1.chi n + ψ2.chi n := by
        simp [add_chi, hn, hnL]
      by_cases hb : b < ψ1.chi (n+1)
      · rw [if_pos hb]
        simp only [LP, ec, sum_range_add_split, Finset.sum_add_distrib, Finset.mul_sum]
        have hzero : (∑ a0 ∈ Finset.range (φ.chi n), ∑ j ∈ Finset.range (ψ2.chi n),
            ∑ p : Fin d, star (φ.B n a0 p a)
              * ((ψ1.add ψ2 α β).B n (ψ1.chi n + j) p b
                  * LP φ (ψ1.add ψ2 α β) n a0 (ψ1.chi n + j))) = 0 := by
          apply Finset.sum_eq_zero
          intro a0 _
          apply Finset.sum_eq_zero
          intro j _
          apply Finset.sum_eq_zero
          intro p _
          rw [add_B, eb1, eb2, eo1, eo2]
          rw [if_neg (show ¬ (ψ1.chi n + j < ψ1.chi n ∧ b < ψ1.chi (n+1)) by omega)]
          rw [if_neg (show ¬ (ψ1.chi n ≤ ψ1.chi n + j ∧ ψ1.chi (n+1) ≤ b) by omega)]
          simp
        rw [hzero, add_zero]
        refine Finset.sum_congr rfl fun a0 _ => ?_
        refine Finset.sum_congr rfl fun b0 hb0 => ?_
        refine Finset.sum_congr rfl fun p _ => ?_
        have hb0' : b0 < ψ1.chi n := Finset.mem_range.mp hb0
        rw [add_B, eb1, eb2, eo1, eo2]
        rw [if_pos (show b0 < ψ1.chi n ∧ b < ψ1.chi (n+1) from ⟨hb0', hb⟩)]
        rw [if_neg (show ¬ (ψ1.chi n ≤ b0 ∧ ψ1.chi (n+1) ≤ b) by omega)]
        rw [if_neg hn, ih hn1 hn2 a0 b0, if_pos hb0']
        ring
      · rw [if_neg hb]
        simp only [LP, ec, sum_range_add_split, Finset.sum_add_distrib, Finset.mul_sum]
        have hzero : (∑ a0 ∈ Finset.range (φ.chi n), ∑ b0 ∈ Finset.range (ψ1.chi n),
            ∑ p : Fin d, star (φ.B n a0 p a)
              * ((ψ1.add ψ2 α β).B n b0 p b
                  * LP φ (ψ1.add ψ2 α β) n a0 b0)) = 0 := by
          apply Finset.sum_eq_zero
          intro a0 _
          apply Finset.sum_eq_zero
          intro b0 hb0
          apply Finset.sum_eq_zero
          intro p _
          have hb0' : b0 < ψ1.chi n := Finset.mem_range.mp hb0
          rw [add_B, eb1, eb2, eo1, eo2]
          rw [if_neg (show ¬ (b0 < ψ1.chi n ∧ b < ψ1.chi (n+1)) by omega)]
          rw [if_neg (show ¬ (ψ1.chi n ≤ b0 ∧ ψ1.chi (n+1) ≤ b) by omega)]
          simp
        rw [hzero, zero_add]
        refine Finset.sum_congr rfl fun a0 _ => ?_
        refine Finset.sum_congr rfl fun j hj => ?_
        refine Finset.sum_congr rfl fun p _ => ?_
        rw [add_B, eb1, eb2, eo1, eo2]
        rw [if_neg (show ¬ (ψ1.chi n + j < ψ1.chi n ∧ b < ψ1.chi (n+1)) by omega)]
        rw [if_pos (show ψ1.chi n ≤ ψ1.chi n + j ∧ ψ1.chi (n+1) ≤ b
          from ⟨Nat.le_add_right _ _, by omega⟩)]
        rw [if_neg hn, ih hn1 hn2 a0 (ψ1.chi n + j)]
        rw [if_neg (show ¬ (ψ1.chi n + j < ψ1.chi n) by omega), Nat.add_sub_cancel_left]
        ring

/-- Overlap against the block direct sum is the coefficient-weighted sum of
the overlaps against the two summands: `add` represents
`alpha·self + beta·other`. -/
lemma overlap_add (φ ψ1 ψ2 : MPS K L d) (α β : K)
    (h10 : ψ1.chi 0 = 1) (h20 : ψ2.chi 0 = 1) (hL : 1 ≤ L) :
    overlap φ (ψ1.add ψ2 α β) = α * overlap φ ψ1 + β * overlap φ ψ2 := by
  obtain ⟨M, rfl⟩ : ∃ M, L = M + 1 := ⟨L - 1, by omega⟩
  unfold overlap
  by_cases hM : M = 0
  · subst hM
    have e1 : bcut ψ1 0 = 1 := by simp [bcut]
    have e2 : bcut ψ1 1 = 1 := by simp [bcut]
    have e3 : boff ψ1 0 = 0 := by simp [boff]
    have e4 : boff ψ1 1 = 0 := by simp [boff]
    have eB : ∀ p : Fin d,
        (ψ1.add ψ2 α β).B 0 0 p 0 = α * ψ1.B 0 0 p 0 + β * ψ2.B 0 0 p 0 := by
      intro p
      rw [add_B, e1, e2, e3, e4]
      rw [if_pos (show (0:ℕ) < 1 ∧ (0:ℕ) < 1 from ⟨Nat.zero_lt_one, Nat.zero_lt_one⟩)]
      rw [if_pos (show (0:ℕ) ≤ 0 ∧ (0:ℕ) ≤ 0 from ⟨Nat.le_refl 0, Nat.le_refl 0⟩)]
      simp
    simp only [LP, add_chi, eq_self_iff_true, true_or, if_true,
      Finset.sum_range_one, h10, h20, Finset.mul_sum]
    rw [← Finset.sum_add_distrib]
    refine Finset.sum_congr rfl fun a0 _ => ?_
    rw [← Finset.sum_add_distrib]
    refine Finset.sum_congr rfl fun p _ => ?_
    rw [eB p]
    ring
  · have hM1 : 1 ≤ M := by omega
    have hMM : M ≠ M + 1 := by omega
    have eb1 : bcut ψ1 M = ψ1.chi M := by simp [bcut, hM, hMM]
    have eb2 : bcut ψ1 (M+1) = 1 := by simp [bcut]
    have eo1 : boff ψ1 M = ψ1.chi M := by simp [boff, hM, hMM]
    have eo2 : boff ψ1 (M+1) = 0 := by simp [boff]
    have ec : (ψ1.add ψ2 α β).chi M = ψ1.chi M + ψ2.chi M := by
      simp [add_chi, hM, hMM]
    have inv := LP_add_inv φ ψ1 ψ2 α β h10 h20 M hM1 (by omega)
    have e_lhs : LP φ (ψ1.add ψ2 α β) (M+1) 0 0
        = (∑ a0 ∈ Finset.range (φ.chi M), ∑ b0 ∈ Finset.range (ψ1.chi M),
            ∑ p : Fin d, star (φ.B M a0 p 0)
              * ((ψ1.add ψ2 α β).B M b0 p 0 * LP φ (ψ1.add ψ2 α β) M a0 b0))
          + (∑ a0 ∈ Finset.range (φ.chi M), ∑ j ∈ Finset.range (ψ2.chi M),
              ∑ p : Fin d, star (φ.B M a0 p 0)
                * ((ψ1.add ψ2 α β).B M (ψ1.chi M + j) p 0
                    * LP φ (ψ1.add ψ2 α β) M a0 (ψ1.chi M + j))) := by
      conv_lhs => rw [LP]
      simp only [ec, sum_range_add_split, Finset.sum_add_distrib]
    have hS1 : (∑ a0 ∈ Finset.range (φ.chi M), ∑ b0 ∈ Finset.range (ψ1.chi M),
        ∑ p : Fin d, star (φ.B M a0 p 0)
          * ((ψ1.add ψ2 α β).B M b0 p 0 * LP φ (ψ1.add ψ2 α β) M a0 b0))
        = α * LP φ ψ1 (M+1) 0 0 := by
      conv_rhs => rw [LP]
      rw [Finset.mul_sum]
      refine Finset.sum_congr rfl fun a0 _ => ?_
      rw [Finset.mul_sum]
      refine Finset.sum_congr rfl fun b0 hb0 => ?_
      rw [Finset.mul_sum]
      refine Finset.sum_congr rfl fun p _ => ?_
      have hb0' : b0 < ψ1.chi M := Finset.mem_range.mp hb0
      rw [add_B, eb1, eb2, eo1, eo2]
      rw [if_pos (show b0 < ψ1.chi M ∧ (0:ℕ) < 1 from ⟨hb0', Nat.zero_lt_one⟩)]
      rw [if_neg (show ¬ (ψ1.chi M ≤ b0 ∧ (0:ℕ) ≤ 0) by omega)]
      rw [if_neg hM, inv a0 b0, if_pos hb0']
      ring
    have hS2 : (∑ a0 ∈ Finset.range (φ.chi M), ∑ j ∈ Finset.range (ψ2.chi M),
        ∑ p : Fin d, star (φ.B M a0 p 0)
          * ((ψ1.add ψ2 α β).B M (ψ1.chi M + j) p 0
              * LP φ (ψ1.add ψ2 α β) M a0 (ψ1.chi M + j)))
        = β * LP φ ψ2 (M+1) 0 0 := by
      conv_rhs => rw [LP]
      rw [Finset.mul_sum]
      refine Finset.sum_congr rfl fun a0 _ => ?_
      rw [Finset.mul_sum]
      refine Finset.sum_congr rfl fun j hj => ?_
      rw [Finset.mul_sum]
      refine Finset.sum_congr rfl fun p _ => ?_
      rw [add_B, eb1, eb2, eo1, eo2]
      rw [if_neg (show ¬ (ψ1.chi M + j < ψ1.chi M ∧ (0:ℕ) < 1) by omega)]
      rw [if_pos (show ψ1.chi M ≤ ψ1.chi M + j ∧ (0:ℕ) ≤ 0
        from ⟨Nat.le_add_right _ _, Nat.le_refl 0⟩)]
      rw [if_neg hM, inv a0 (ψ1.chi M + j)]
      rw [if_neg (show ¬ (ψ1.chi M + j < ψ1.chi M) by omega), Nat.add_sub_cancel_left,
        Nat.sub_zero]
      ring
    rw [e_lhs, hS1, hS2]

/-- Overlap of the block direct sum as a bra: conjugate-linear in the
coefficients. -/
lemma overlap_add_left (φ ψ1 ψ2 : MPS K L d) (α β : K)
    (h10 : ψ1.chi 0 = 1) (h20 : ψ2.chi 0 = 1) (hL : 1 ≤ L) :
    overlap (ψ1.add ψ2 α β) φ
      = star α * overlap ψ1 φ + star β * overlap ψ2 φ := by
  rw [← overlap_star φ (ψ1.add ψ2 α β), overlap_add φ ψ1 ψ2 α β h10 h20 hL,
    star_add, star_mul', star_mul', overlap_star, overlap_star]

end AddStates

section CompressSpecSection

/-- Modelled from the spec: `compress(options)` itself is not under `src/`.
The spec requires two interchangeable strategies — a direct SVD sweep and a
variational least-squares fit to the original state — both reducing the bond
dimension while fitting the original state; with a truncation budget at least
the state's Schmidt rank (`chi_max = 30` in the test, far above the rank 2
needed) no weight is discarded, so a valid output of either strategy is
modelled as an MPS with the same overlap against every bra as the input. -/
def CompressSpec (input output : MPS K L d) : Prop :=
  ∀ φ : MPS K L d, overlap φ output = overlap φ input

end CompressSpecSection

/-- C2: compressing `add(psi, psi, .5, .5)` yields overlap 1 with `psi`, and
compressing `add(psi, psi_orthogonal, .5, .5)` yields overlap `.5` (= `star half`)
with each component; the recovered overlaps are the same for any two outputs
satisfying the compression contract, hence independent of which of the two
strategies produced them. -/
theorem C2_compress_add (ψ ψO : MPS K L d) (half : K)
    (h10 : ψ.chi 0 = 1) (hO0 : ψO.chi 0 = 1) (hL : 1 ≤ L)
    (hself : overlap ψ ψ = 1) (hOO : overlap ψO ψO = 1)
    (hOrth : overlap ψ ψO = 0) (hhalf : half + half = 1)
    (out1 out2 outO : MPS K L d)
    (hc1 : CompressSpec (ψ.add ψ half half) out1)
    (hc2 : CompressSpec (ψ.add ψ half half) out2)
    (hcO : CompressSpec (ψ.add ψO half half) outO) :
    overlap out1 ψ = 1 ∧ overlap out2 ψ = 1 ∧ overlap out1 ψ = overlap out2 ψ
      ∧ overlap outO ψ = star half ∧ overlap outO ψO = star half := by
  have key : ∀ out : MPS K L d, CompressSpec (ψ.add ψ half half) out →
      overlap out ψ = 1 := by
    intro out hc
    rw [← overlap_star ψ out, hc ψ, overlap_add ψ ψ ψ half half h10 h10 hL, hself]
    rw [mul_one, hhalf, star_one]
  have hOψ : overlap ψO ψ = 0 := by
    rw [← overlap_star ψ ψO, hOrth, star_zero]
  refine ⟨key out1 hc1, key out2 hc2, by rw [key out1 hc1, key out2 hc2], ?_, ?_⟩
  · rw [← overlap_star ψ outO, hcO ψ, overlap_add ψ ψ ψO half half h10 hO0 hL,
      hself, hOrth, mul_one, mul_zero, add_zero]
  · rw [← overlap_star ψO outO, hcO ψO, overlap_add ψO ψ ψO half half h10 hO0 hL,
      hOψ, hOO, mul_zero, mul_one, zero_add]

/-- Witness for C2 at the two orthogonal spin basis product states on a chain
of length 2 over `ℚ`, with the (exactly state-preserving) identity compression
for both strategy slots. -/
theorem C2_witness :
    overlap ((MPS.from_product_state (K := ℚ) (L := 2) (d := 2)
        (fun _ => 0)).add (MPS.from_product_state fun _ => 0) (1/2) (1/2))
          (MPS.from_product_state fun _ => 0) = 1
      ∧ overlap ((MPS.from_product_state (K := ℚ) (L := 2) (d := 2)
          (fun _ => 0)).add (MPS.from_product_state fun _ => 1) (1/2) (1/2))
            (MPS.from_product_state fun _ => 0) = star ((1:ℚ)/2) := by
  have h := C2_compress_add (K := ℚ) (L := 2) (d := 2)
    (MPS.from_product_state fun _ => 0) (MPS.from_product_state fun _ => 1)
    (1/2) rfl rfl (by norm_num)
    (overlap_from_product_state_self _) (overlap_from_product_state_self _)
    (overlap_from_product_state_ne _ _ 0 (by norm_num) (by decide))
    (by norm_num)
    ((MPS.from_product_state fun _ => 0).add (MPS.from_product_state fun _ => 0)
      (1/2) (1/2))
    ((MPS.from_product_state fun _ => 0).add (MPS.from_product_state fun _ => 0)
      (1/2) (1/2))
    ((MPS.from_product_state fun _ => 0).add (MPS.from_product_state fun _ => 1)
      (1/2) (1/2))
    (fun φ => rfl) (fun φ => rfl) (fun φ => rfl)
  exact ⟨h.1, h.2.2.2.1⟩

/-- C6 (amended): against two orthogonal normalized summands the direct sum
`add(psi2, a, b)` has overlap `star a` with `psi1` and `star b` with `psi2`
(equal to `a`/`b` up to conjugation, hence up to global phase); adding a
normalized state to itself with coefficients summing to 1 (such as `.5, .5`)
yields overlap 1 with the original; and the bond dimension at every interior
bond is the sum of the two inputs' bond dimensions, the boundary bonds of the
finite chain staying trivial. -/
theorem C6_add_overlap (ψ1 ψ2 ψ : MPS K L d) (a b c1 c2 : K)
    (h10 : ψ1.chi 0 = 1) (h20 : ψ2.chi 0 = 1) (hψ0 : ψ.chi 0 = 1)
    (hL : 1 ≤ L)
    (h11 : overlap ψ1 ψ1 = 1) (h22 : overlap ψ2 ψ2 = 1)
    (h12 : overlap ψ1 ψ2 = 0)
    (hψψ : overlap ψ ψ = 1) (hc : c1 + c2 = 1) :
    overlap (ψ1.add ψ2 a b) ψ1 = star a
      ∧ overlap (ψ1.add ψ2 a b) ψ2 = star b
      ∧ overlap (ψ.add ψ c1 c2) ψ = 1
      ∧ (∀ bd, 0 < bd → bd < L → (ψ1.add ψ2 a b).chi bd = ψ1.chi bd + ψ2.chi bd) := by
  have h21 : overlap ψ2 ψ1 = 0 := by
    rw [← overlap_star ψ1 ψ2, h12, star_zero]
  refine ⟨?_, ?_, ?_, ?_⟩
  · rw [overlap_add_left ψ1 ψ1 ψ2 a b h10 h20 hL, h11, h21, mul_one, mul_zero,
      add_zero]
  · rw [overlap_add_left ψ2 ψ1 ψ2 a b h10 h20 hL, h12, h22, mul_zero, mul_one,
      zero_add]
  · rw [overlap_add_left ψ ψ ψ c1 c2 hψ0 hψ0 hL, hψψ, mul_one, mul_one,
      ← star_add, hc, star_one]
  · intro bd hbd0 hbdL
    rw [add_chi, if_neg (by omega)]

/-- Witness for C6 at two orthogonal basis product states over `ℚ` with
coefficients `3`, `5` and self-addition coefficients `1/2`, `1/2`. -/
theorem C6_witness :
    overlap ((MPS.from_product_state (K := ℚ) (L := 2) (d := 2)
        (fun _ => 0)).add (MPS.from_product_state fun _ => 1) 3 5)
          (MPS.from_product_state fun _ => 0) = star (3:ℚ)
      ∧ overlap ((MPS.from_product_state (K := ℚ) (L := 2) (d := 2)
          (fun _ => 1)).add (MPS.from_product_state fun _ => 1) (1/2) (1/2))
            (MPS.from_product_state fun _ => 1) = 1 := by
  have h := C6_add_overlap (K := ℚ) (L := 2) (d := 2)
    (MPS.from_product_state fun _ => 0) (MPS.from_product_state fun _ => 1)
    (MPS.from_product_state fun _ => 1) 3 5 (1/2) (1/2)
    rfl rfl rfl (by norm_num)
    (overlap_from_product_state_self _) (overlap_from_product_state_self _)
    (overlap_from_product_state_ne _ _ 0 (by norm_num) (by decide))
    (overlap_from_product_state_self _) (by norm_num)
  exact ⟨h.1, h.2.2.1⟩

/-- A normalized one-site chain with trivial local dimension, used as a
concrete counterexample input. -/
def psiOne : MPS ℝ 1 1 where
  chi := fun _ => 1
  B := fun _ _ _ _ => 1
  S := fun _ _ => 1
  norm := 1

lemma psiOne_overlap : overlap psiOne psiOne = 1 := by
  simp [overlap, LP, psiOne, Fin.sum_univ_one]
  decide

/-- C6 counterexample: for the normalized state `psiOne`, adding it to itself
with `a = b = 1/sqrt 2` yields overlap `sqrt 2 ≠ 1` with the original (the
claim asserts overlap 1), and the bond dimension at the boundary bond 0 is 1,
not the sum `1 + 1` (the claim asserts the sum at each bond). -/
theorem C6_counterexample :
    overlap psiOne psiOne = 1
      ∧ overlap (psiOne.add psiOne (Real.sqrt 2)⁻¹ (Real.sqrt 2)⁻¹) psiOne ≠ 1
      ∧ (psiOne.add psiOne (Real.sqrt 2)⁻¹ (Real.sqrt 2)⁻¹).chi 0
          ≠ psiOne.chi 0 + psiOne.chi 0 := by
  refine ⟨psiOne_overlap, ?_, ?_⟩
  · have hv : overlap (psiOne.add psiOne (Real.sqrt 2)⁻¹ (Real.sqrt 2)⁻¹) psiOne
        = Real.sqrt 2 := by
      rw [overlap_add_left psiOne psiOne psiOne _ _ rfl rfl (by norm_num),
        psiOne_overlap, mul_one]
      have hs : Real.sqrt 2 * Real.sqrt 2 = 2 := Real.mul_self_sqrt (by norm_num)
      have hne : Real.sqrt 2 ≠ 0 := by
        intro h0
        rw [h0, mul_zero] at hs
        norm_num at hs
      simp only [star_trivial]
      field_simp
      linarith [hs]
    rw [hv, Ne, Real.sqrt_eq_one]
    norm_num
  · rw [add_chi]
    norm_num [psiOne]

section Fermionic

/-- A wavefunction on `L` sites of local dimension `d`, given by its
amplitudes on the occupation-number basis. -/
abbrev QState (K : Type) (L d : ℕ) : Type := (Fin L → Fin d) → K

/-- Inner product of two wavefunctions (bra conjugated). -/
def overlapQ (φ ψ : QState K L d) : K :=
  ∑ c : Fin L → Fin d, star (φ c) * ψ c

/-- Apply a one-site operator `A` at site `i`. -/
def applyOpAt (A : Fin d → Fin d → K) (i : Fin L) (ψ : QState K L d) : QState K L d :=
  fun c => ∑ k : Fin d, A (c i) k * ψ (Function.update c i k)

/-- The accumulated Jordan–Wigner sign of the sites strictly left of `i`:
the product of the per-basis-state parities `par`. -/
def SJW (par : Fin d → K) (i : Fin L) (c : Fin L → Fin d) : K :=
  ∏ t ∈ Finset.univ.filter (fun t : Fin L => t < i), par (c t)

/-- Multiply by the Jordan–Wigner string left of site `i`. -/
def jwString (par : Fin d → K) (i : Fin L) (ψ : QState K L d) : QState K L d :=
  fun c => SJW par i c * ψ c

/-- One factor of an operator term: a one-site operator, the site it acts on,
and whether it carries a Jordan–Wigner string (odd fermionic parity). -/
structure TermOp (K : Type) (L d : ℕ) where
  op : Fin d → Fin d → K
  pos : Fin L
  needsJW : Bool

/-- Apply one term factor, inserting the Jordan–Wigner string for operators of
odd fermionic parity.  Modelled from the spec: the fermionic sign helper
computes the accumulated sign from the operator positions and parities. -/
def applyEntry (par : Fin d → K) (e : TermOp K L d) (ψ : QState K L d) : QState K L d :=
  if e.needsJW then jwString par e.pos (applyOpAt e.op e.pos ψ)
  else applyOpAt e.op e.pos ψ

/-- Evaluate an ordered operator product on a state (the leftmost factor is
applied last). -/
def evalTerm (par : Fin d → K) (term : List (TermOp K L d)) (ψ : QState K L d) :
    QState K L d :=
  term.foldr (applyEntry par) ψ

/-- Expectation value of an ordered product of single-site operators at
specified positions, with fermionic sign bookkeeping.  Modelled from the spec:
`expectation_value_term` is not under `src/`. -/
def expectation_value_term (par : Fin d → K) (ψ : QState K L d)
    (term : List (TermOp K L d)) : K :=
  overlapQ ψ (evalTerm par term ψ)

/-- Two-point correlator of two fermionic (Jordan–Wigner-carrying) operators,
evaluated as the ordered two-factor term.  Modelled from the spec:
`correlation_function` inserts the sign factors between the two sites. -/
def correlation_function (par : Fin d → K) (ψ : QState K L d)
    (A B : Fin d → Fin d → K) (i j : Fin L) : K :=
  expectation_value_term par ψ [⟨A, i, true⟩, ⟨B, j, true⟩]

/-- Odd fermionic parity of a one-site operator: it anticommutes with the
on-site parity operator. -/
def OddParity (par : Fin d → K) (A : Fin d → Fin d → K) : Prop :=
  ∀ x y, par x * A x y = -(A x y * par y)

/-- The Jordan–Wigner string left of `i` ignores an update at a site not left
of `i`. -/
lemma SJW_update_of_not_lt (par : Fin d → K) (i m : Fin L) (him : ¬ m < i)
    (c : Fin L → Fin d) (v : Fin d) :
    SJW par i (Function.update c m v) = SJW par i c := by
  unfold SJW
  refine Finset.prod_congr rfl fun t ht => ?_
  have htlt : t < i := (Finset.mem_filter.mp ht).2
  have : t ≠ m := fun h => him (h ▸ htlt)
  rw [Function.update_noteq this]

/-- The Jordan–Wigner string left of `i` after updating a site `m < i`. -/
lemma SJW_update_of_lt (par : Fin d → K) (i m : Fin L) (him : m < i)
    (c : Fin L → Fin d) (v : Fin d) :
    SJW par i (Function.update c m v)
      = par v * ∏ t ∈ (Finset.univ.filter (fun t : Fin L => t < i)) \ {m},
          par (c t) := by
  unfold SJW
  have hm : m ∈ Finset.univ.filter (fun t : Fin L => t < i) :=
    Finset.mem_filter.mpr ⟨Finset.mem_univ m, him⟩
  have hfun : ∀ t, par (Function.update c m v t)
      = Function.update (fun t => par (c t)) m (par v) t := by
    intro t
    by_cases h : t = m
    · subst h
      simp
    · rw [Function.update_noteq h, Function.update_noteq h]
  rw [Finset.prod_congr rfl fun t _ => hfun t, Finset.prod_update_of_mem hm]

/-- Splitting the Jordan–Wigner string left of `i` at a site `m < i`. -/
lemma SJW_split (par : Fin d → K) (i m : Fin L) (him : m < i)
    (c : Fin L → Fin d) :
    SJW par i c
      = par (c m) * ∏ t ∈ (Finset.univ.filter (fun t : Fin L => t < i)) \ {m},
          par (c t) := by
  unfold SJW
  have hm : m ∈ Finset.univ.filter (fun t : Fin L => t < i) :=
    Finset.mem_filter.mpr ⟨Finset.mem_univ m, him⟩
  exact Finset.prod_eq_mul_prod_diff_singleton hm _

/-- Anticommutation of two Jordan–Wigner-dressed odd operators at sites
`i < j`. -/
lemma entry_anticomm_lt (par : Fin d → K) (A B : Fin d → Fin d → K)
    (i j : Fin L) (hij : i < j)
    (hA : OddParity par A) (ψ : QState K L d) :
    applyEntry par ⟨A, i, true⟩ (applyEntry par ⟨B, j, true⟩ ψ)
      = - applyEntry par ⟨B, j, true⟩ (applyEntry par ⟨A, i, true⟩ ψ) := by
  have hne : i ≠ j := Fin.ne_of_lt hij
  have hA' : ∀ x y, A x y * par y = -(par x * A x y) := by
    intro x y
    linear_combination hA x y
  change jwString par i (applyOpAt A i (jwString par j (applyOpAt B j ψ)))
    = - jwString par j (applyOpAt B j (jwString par i (applyOpAt A i ψ)))
  funext c
  simp only [jwString, applyOpAt, Pi.neg_apply]
  have hL : SJW par i c *
      (∑ k : Fin d, A (c i) k * (SJW par j (Function.update c i k) *
        ∑ l : Fin d, B (Function.update c i k j) l *
          ψ (Function.update (Function.update c i k) j l)))
      = ∑ k : Fin d, ∑ l : Fin d,
          SJW par i c * A (c i) k * par k *
            (∏ t ∈ (Finset.univ.filter (fun t : Fin L => t < j)) \ {i}, par (c t)) *
              B (c j) l * ψ (Function.update (Function.update c i k) j l) := by
    rw [Finset.mul_sum]
    refine Finset.sum_congr rfl fun k _ => ?_
    rw [SJW_update_of_lt par j i hij c k, Function.update_noteq hne.symm]
    simp only [Finset.mul_sum]
    refine Finset.sum_congr rfl fun l _ => ?_
    ring
  have hR : SJW par j c *
      (∑ l : Fin d, B (c j) l * (SJW par i (Function.update c j l) *
        ∑ k : Fin d, A (Function.update c j l i) k *
          ψ (Function.update (Function.update c j l) i k)))
      = ∑ l : Fin d, ∑ k : Fin d,
          SJW par i c * (par (c i) * A (c i) k) *
            (∏ t ∈ (Finset.univ.filter (fun t : Fin L => t < j)) \ {i}, par (c t)) *
              B (c j) l * ψ (Function.update (Function.update c i k) j l) := by
    rw [SJW_split par j i hij c, Finset.mul_sum]
    refine Finset.sum_congr rfl fun l _ => ?_
    rw [SJW_update_of_not_lt par i j (lt_asymm hij) c l, Function.update_noteq hne]
    simp only [Finset.mul_sum]
    refine Finset.sum_congr rfl fun k _ => ?_
    rw [Function.update_comm hne.symm l k c]
    ring
  rw [hL, hR]
  rw [show (∑ l : Fin d, ∑ k : Fin d,
      SJW par i c * (par (c i) * A (c i) k) *
        (∏ t ∈ (Finset.univ.filter (fun t : Fin L => t < j)) \ {i}, par (c t)) *
          B (c j) l * ψ (Function.update (Function.update c i k) j l))
      = ∑ k : Fin d, ∑ l : Fin d,
          SJW par i c * (par (c i) * A (c i) k) *
            (∏ t ∈ (Finset.univ.filter (fun t : Fin L => t < j)) \ {i}, par (c t)) *
              B (c j) l * ψ (Function.update (Function.update c i k) j l)
    from Finset.sum_comm]
  rw [← Finset.sum_neg_distrib]
  refine Finset.sum_congr rfl fun k _ => ?_
  rw [← Finset.sum_neg_distrib]
  refine Finset.sum_congr rfl fun l _ => ?_
  linear_combination ((∏ t ∈ (Finset.univ.filter (fun t : Fin L => t < j)) \ {i},
    par (c t)) * B (c j) l * ψ (Function.update (Function.update c i k) j l)
      * SJW par i c) * hA' (c i) k

/-- Anticommutation of two Jordan–Wigner-dressed odd operators at distinct
sites. -/
lemma entry_anticomm (par : Fin d → K) (A B : Fin d → Fin d → K)
    (i j : Fin L) (hij : i ≠ j)
    (hA : OddParity par A) (hB : OddParity par B) (ψ : QState K L d) :
    applyEntry par ⟨A, i, true⟩ (applyEntry par ⟨B, j, true⟩ ψ)
      = - applyEntry par ⟨B, j, true⟩ (applyEntry par ⟨A, i, true⟩ ψ) := by
  rcases lt_or_gt_of_ne hij with h | h
  · exact entry_anticomm_lt par A B i j h hA ψ
  · rw [entry_anticomm_lt par B A j i h hB ψ, neg_neg]

lemma applyOpAt_neg (A : Fin d → Fin d → K) (i : Fin L) (ψ : QState K L d) :
    applyOpAt A i (-ψ) = - applyOpAt A i ψ := by
  funext c
  simp [applyOpAt, Finset.sum_neg_distrib]

lemma jwString_neg (par : Fin d → K) (i : Fin L) (ψ : QState K L d) :
    jwString par i (-ψ) = - jwString par i ψ := by
  funext c
  simp [jwString]

lemma applyEntry_neg (par : Fin d → K) (e : TermOp K L d) (ψ : QState K L d) :
    applyEntry par e (-ψ) = - applyEntry par e ψ := by
  obtain ⟨A, i, jw⟩ := e
  cases jw
  · simp [applyEntry, applyOpAt_neg]
  · simp [applyEntry, applyOpAt_neg, jwString_neg]

lemma foldr_applyEntry_neg (par : Fin d → K) (term : List (TermOp K L d))
    (χ : QState K L d) :
    term.foldr (applyEntry par) (-χ) = - term.foldr (applyEntry par) χ := by
  induction term with
  | nil => rfl
  | cons e t ih => simp [List.foldr_cons, ih, applyEntry_neg]

lemma overlapQ_neg (φ ψ : QState K L d) : overlapQ φ (-ψ) = - overlapQ φ ψ := by
  simp [overlapQ, Finset.sum_neg_distrib]

/-- Swapping two adjacent odd-parity operators at distinct sites inside a term
negates the expectation value. -/
lemma expectation_value_term_swap (par : Fin d → K) (A B : Fin d → Fin d → K)
    (i j : Fin L) (hij : i ≠ j)
    (hA : OddParity par A) (hB : OddParity par B) (ψ : QState K L d)
    (pre post : List (TermOp K L d)) :
    expectation_value_term par ψ (pre ++ ⟨A, i, true⟩ :: ⟨B, j, true⟩ :: post)
      = - expectation_value_term par ψ (pre ++ ⟨B, j, true⟩ :: ⟨A, i, true⟩ :: post) := by
  unfold expectation_value_term evalTerm
  rw [List.foldr_append, List.foldr_append]
  simp only [List.foldr_cons]
  rw [entry_anticomm par A B i j hij hA hB (post.foldr (applyEntry par) ψ),
    foldr_applyEntry_neg, overlapQ_neg]

/-- C3: for two odd-parity (fermionic) operators applied at distinct sites,
swapping their order inside the term passed to `expectation_value_term`
negates the computed expectation value, and the two-point
`correlation_function` of fermionic operators satisfies
`C[i,j] = -C_swapped[j,i]` for `i ≠ j` — for every state, in particular the
explicit 4-site occupation-number product state of the test. -/
theorem C3_fermionic_sign (par : Fin d → K) (A B : Fin d → Fin d → K)
    (i j : Fin L) (hij : i ≠ j)
    (hA : OddParity par A) (hB : OddParity par B) (ψ : QState K L d)
    (pre post : List (TermOp K L d)) :
    expectation_value_term par ψ (pre ++ ⟨A, i, true⟩ :: ⟨B, j, true⟩ :: post)
        = - expectation_value_term par ψ (pre ++ ⟨B, j, true⟩ :: ⟨A, i, true⟩ :: post)
      ∧ correlation_function par ψ A B i j = - correlation_function par ψ B A j i := by
  refine ⟨expectation_value_term_swap par A B i j hij hA hB ψ pre post, ?_⟩
  unfold correlation_function
  have h := expectation_value_term_swap par A B i j hij hA hB ψ [] []
  simpa using h

/-- Per-basis-state fermion parities of the spin-half fermion site
`[empty, up, down, full]`. -/
def parF : Fin 4 → ℤ := ![1, -1, -1, 1]

/-- Annihilator of an up fermion on the spin-half fermion site. -/
def Cu : Fin 4 → Fin 4 → ℤ := ![![0, 1, 0, 0], ![0, 0, 0, 0], ![0, 0, 0, 1], ![0, 0, 0, 0]]

/-- Annihilator of a down fermion on the spin-half fermion site (with the
Jordan–Wigner sign of the up fermion). -/
def Cd : Fin 4 → Fin 4 → ℤ := ![![0, 0, 1, 0], ![0, 0, 0, -1], ![0, 0, 0, 0], ![0, 0, 0, 0]]

/-- Creator of a down fermion on the spin-half fermion site. -/
def Cdd : Fin 4 → Fin 4 → ℤ := ![![0, 0, 0, 0], ![0, 0, 0, 0], ![1, 0, 0, 0], ![0, -1, 0, 0]]

/-- Creator of an up fermion on the spin-half fermion site. -/
def Cdu : Fin 4 → Fin 4 → ℤ := ![![0, 0, 0, 0], ![1, 0, 0, 0], ![0, 0, 0, 0], ![0, 0, 1, 0]]

/-- The explicit 4-site occupation-number product state
`['empty', 'up', 'down', 'full']` of the fermionic sign test. -/
def psiF : QState ℤ 4 4 := fun c => if c = (fun i => i) then 1 else 0

/-- Witness for C3: the fermionic sign theorem applied at the explicit 4-site
occupation-number product state with the term of the test,
`[('Cu', 2), ('Cd', 1), ('Cdd', 1), ('Cdu', 2)]` against its swap. -/
theorem C3_witness :
    expectation_value_term parF psiF
        ([] ++ ⟨Cu, 2, true⟩ :: ⟨Cd, 1, true⟩ :: [⟨Cdd, 1, true⟩, ⟨Cdu, 2, true⟩])
        = - expectation_value_term parF psiF
            ([] ++ ⟨Cd, 1, true⟩ :: ⟨Cu, 2, true⟩ :: [⟨Cdd, 1, true⟩, ⟨Cdu, 2, true⟩])
      ∧ correlation_function parF psiF Cu Cd 2 1
          = - correlation_function parF psiF Cd Cu 1 2 :=
  C3_fermionic_sign parF Cu Cd 2 1 (by decide)
    (by unfold OddParity; decide) (by unfold OddParity; decide) psiF
    [] [⟨Cdd, 1, true⟩, ⟨Cdu, 2, true⟩]

end Fermionic

section Singlets

/-- Number of singlet pairs with exactly one endpoint on each side of cut `b`
(the pair `(i, j)` with `i < j` crosses the cut when `i < b ≤ j`). -/
def crossings (pairs : List (ℕ × ℕ)) (b : ℕ) : ℕ :=
  (pairs.filter (fun pr => pr.1 < b ∧ b ≤ pr.2)).length

/-- Modelled from the spec: `from_singlets` is not under `src/`.  Per the
spec it encodes a fixed pairing pattern of maximally entangled two-site
singlets (plus unentangled lonely sites), and its bond dimension at bond `b`
is `2 ^ (number of pairs crossing the cut)`. -/
def from_singlets_chi (pairs : List (ℕ × ℕ)) (b : ℕ) : ℕ :=
  2 ^ crossings pairs b

/-- Modelled from the spec: the Schmidt spectrum of the singlet pattern state
at bond `b` is uniform — each of the `crossings` maximally entangled pairs
contributes a factor `1/sqrt 2` to every singular value. -/
noncomputable def from_singlets_S (pairs : List (ℕ × ℕ)) (b i : ℕ) : ℝ :=
  ((Real.sqrt 2)⁻¹) ^ crossings pairs b

/-- The singlet Schmidt spectrum is normalized: the squares sum to 1. -/
lemma from_singlets_S_normalized (pairs : List (ℕ × ℕ)) (b : ℕ) :
    ∑ i ∈ Finset.range (from_singlets_chi pairs b),
      (from_singlets_S pairs b i)^2 = 1 := by
  unfold from_singlets_chi from_singlets_S
  rw [Finset.sum_const, Finset.card_range, nsmul_eq_mul]
  have h1 : (((Real.sqrt 2)⁻¹) ^ crossings pairs b)^2
      = ((2:ℝ)⁻¹)^ crossings pairs b := by
    rw [← pow_mul, mul_comm, pow_mul]
    congr 1
    rw [← Real.sqrt_inv]
    exact Real.sq_sqrt (by norm_num)
  rw [h1]
  push_cast
  rw [← mul_pow]
  norm_num

/-- C4: for the singlet pairing pattern, the bond dimension at bond `b` is
`2 ^ (number of pairs with exactly one endpoint on each side of cut b)`, and
the entanglement entropy of the (uniform) Schmidt spectrum at that bond is
`log 2` times that same count. -/
theorem C4_singlets (pairs : List (ℕ × ℕ)) (b : ℕ) :
    from_singlets_chi pairs b = 2 ^ crossings pairs b
      ∧ entropyOf (from_singlets_chi pairs b) (from_singlets_S pairs b)
          = Real.log 2 * crossings pairs b := by
  constructor
  · rfl
  · unfold entropyOf from_singlets_chi from_singlets_S
    have h1 : (((Real.sqrt 2)⁻¹) ^ crossings pairs b)^2
        = ((2:ℝ)⁻¹)^ crossings pairs b := by
      rw [← pow_mul, mul_comm, pow_mul]
      congr 1
      rw [← Real.sqrt_inv]
      exact Real.sq_sqrt (by norm_num)
    rw [Finset.sum_const, Finset.card_range, nsmul_eq_mul, h1,
      Real.log_pow, Real.log_inv]
    push_cast
    have h2 : (2:ℝ) ^ crossings pairs b * ((2:ℝ)⁻¹) ^ crossings pairs b = 1 := by
      rw [← mul_pow]
      norm_num
    linear_combination ((crossings pairs b : ℝ) * Real.log 2) * h2

end Singlets

section Charges

/-- Modelled from the spec: quantum-number bookkeeping of a charge-conserving
MPS — per-bond Schmidt weights `w` (the squared singular values), per-bond
per-Schmidt-index charge values `bondQ`, per-site operator charges `siteQ`,
and the tensors `B` (abstracted to rational entries); the implementation is
not under `src/`. -/
structure ChargedMPS where
  L : ℕ
  chi : ℕ → ℕ
  w : ℕ → ℕ → ℚ
  bondQ : ℕ → ℕ → ℤ
  siteQ : ℕ → ℤ
  B : ℕ → ℕ → ℕ → ℚ

/-- Weighted average of the bond charge values at bond `b`. -/
def average_charge (ψ : ChargedMPS) (b : ℕ) : ℚ :=
  ∑ i ∈ Finset.range (ψ.chi b), ψ.w b i * (ψ.bondQ b i : ℚ)

/-- Weighted variance of the bond charge values at bond `b`. -/
def charge_variance (ψ : ChargedMPS) (b : ℕ) : ℚ :=
  (∑ i ∈ Finset.range (ψ.chi b), ψ.w b i * (ψ.bondQ b i : ℚ)^2)
    - (average_charge ψ b)^2

/-- Modelled from the spec: `gauge_total_charge` shifts the degenerate charge
sector of every bond by a constant offset (to the canonical representative),
touching only the bond charge metadata — not the tensors, the Schmidt
weights, or the per-site operator charges. -/
def gauge_total_charge (ψ : ChargedMPS) (sh : ℕ → ℤ) : ChargedMPS :=
  { ψ with bondQ := fun b i => ψ.bondQ b i + sh b }

/-- Charge total: the sum of the per-site operator charges along the chain. -/
def get_total_charge (ψ : ChargedMPS) : ℤ :=
  ∑ i ∈ Finset.range ψ.L, ψ.siteQ i

/-- C9: `gauge_total_charge` does not alter the physical state (tensors and
Schmidt weights are untouched), leaves `charge_variance` unchanged at every
bond, leaves the charge total invariant, and only shifts the offsets reported
by `average_charge`. -/
theorem C9_gauge_total_charge (ψ : ChargedMPS) (sh : ℕ → ℤ)
    (hw : ∀ b, ∑ i ∈ Finset.range (ψ.chi b), ψ.w b i = 1) :
    (∀ b, charge_variance (gauge_total_charge ψ sh) b = charge_variance ψ b)
      ∧ (gauge_total_charge ψ sh).B = ψ.B
      ∧ (gauge_total_charge ψ sh).w = ψ.w
      ∧ get_total_charge (gauge_total_charge ψ sh) = get_total_charge ψ
      ∧ (∀ b, average_charge (gauge_total_charge ψ sh) b
          = average_charge ψ b + sh b) := by
  have havg : ∀ b, average_charge (gauge_total_charge ψ sh) b
      = average_charge ψ b + sh b := by
    intro b
    unfold average_charge gauge_total_charge
    simp only
    push_cast
    have expand : ∀ i ∈ Finset.range (ψ.chi b),
        ψ.w b i * ((ψ.bondQ b i : ℚ) + (sh b : ℚ))
          = ψ.w b i * (ψ.bondQ b i : ℚ) + (sh b : ℚ) * ψ.w b i := by
      intro i _
      ring
    rw [Finset.sum_congr rfl expand, Finset.sum_add_distrib, ← Finset.mul_sum,
      hw b, mul_one]
  refine ⟨?_, rfl, rfl, rfl, havg⟩
  intro b
  unfold charge_variance
  rw [havg b]
  show (∑ i ∈ Finset.range (ψ.chi b),
      ψ.w b i * ((ψ.bondQ b i + sh b : ℤ) : ℚ)^2)
      - (average_charge ψ b + (sh b : ℚ))^2
    = (∑ i ∈ Finset.range (ψ.chi b), ψ.w b i * (ψ.bondQ b i : ℚ)^2)
      - (average_charge ψ b)^2
  push_cast
  have expand : ∀ i ∈ Finset.range (ψ.chi b),
      ψ.w b i * ((ψ.bondQ b i : ℚ) + (sh b : ℚ))^2
        = ψ.w b i * (ψ.bondQ b i : ℚ)^2
          + (2 * (sh b : ℚ)) * (ψ.w b i * (ψ.bondQ b i : ℚ))
          + ((sh b : ℚ)^2) * ψ.w b i := by
    intro i _
    ring
  rw [Finset.sum_congr rfl expand, Finset.sum_add_distrib, Finset.sum_add_distrib,
    ← Finset.mul_sum, ← Finset.mul_sum, hw b, mul_one]
  unfold average_charge
  ring

/-- A concrete charge-conserving chain used to witness C9. -/
def psiC : ChargedMPS where
  L := 2
  chi := fun _ => 1
  w := fun _ _ => 1
  bondQ := fun _ _ => 0
  siteQ := fun _ => 1
  B := fun _ _ _ => 0

/-- Witness for C9 at the concrete chain `psiC` with a unit shift at every
bond, read off at bond 1. -/
theorem C9_witness :
    charge_variance (gauge_total_charge psiC (fun _ => 1)) 1
        = charge_variance psiC 1
      ∧ get_total_charge (gauge_total_charge psiC (fun _ => 1))
          = get_total_charge psiC
      ∧ average_charge (gauge_total_charge psiC (fun _ => 1)) 1
          = average_charge psiC 1 + 1 := by
  have h := C9_gauge_total_charge psiC (fun _ => 1)
    (fun b => by simp [psiC])
  exact ⟨h.1 1, h.2.2.2.1, h.2.2.2.2 1⟩

end Charges

section Grouping

/-- Reindexing of configurations when `n` consecutive sites are merged into
one grouped site: a configuration of `cnt * n` sites is a configuration of
`cnt` grouped sites, each holding the `n` merged physical indices. -/
def groupConfig (cnt n d : ℕ) :
    (Fin (cnt * n) → Fin d) ≃ (Fin cnt → Fin n → Fin d) :=
  (Equiv.arrowCongr finProdFinEquiv.symm (Equiv.refl (Fin d))).trans
    (Equiv.curry (Fin cnt) (Fin n) (Fin d))

/-- Inner product of two grouped wavefunctions. -/
def overlapG (φ ψ : (Fin cnt → Fin n → Fin d) → K) : K :=
  ∑ C : Fin cnt → Fin n → Fin d, star (φ C) * ψ C

/-- Modelled from the spec: `group_sites(n)` merges `n` consecutive physical
legs into one larger local site; at the wavefunction level this is the
configuration reindexing (the implementation is not under `src/`). -/
def group_sites (cnt n : ℕ) (ψ : QState K (cnt * n) d) :
    (Fin cnt → Fin n → Fin d) → K :=
  fun C => ψ ((groupConfig cnt n d).symm C)

/-- Modelled from the spec: `group_split` is the inverse of `group_sites`,
reconstructing the pre-grouping state exactly when the truncation budget
`chi_max` is at least the state's bond dimension (as in the test). -/
def group_split (cnt n : ℕ) (Ψ : (Fin cnt → Fin n → Fin d) → K) :
    QState K (cnt * n) d :=
  fun c => Ψ (groupConfig cnt n d c)

/-- Grouping preserves all overlaps (it is a reindexing of the basis). -/
lemma overlapG_group_sites (cnt n : ℕ) (φ ψ : QState K (cnt * n) d) :
    overlapG (group_sites cnt n φ) (group_sites cnt n ψ) = overlapQ φ ψ := by
  unfold overlapG group_sites overlapQ
  refine (Fintype.sum_equiv (groupConfig cnt n d)
    (fun c => star (φ c) * ψ c)
    (fun C => star (φ ((groupConfig cnt n d).symm C))
      * ψ ((groupConfig cnt n d).symm C)) ?_).symm
  intro c
  simp

/-- Splitting after grouping reproduces the state exactly. -/
lemma group_split_group_sites (cnt n : ℕ) (ψ : QState K (cnt * n) d) :
    group_split cnt n (group_sites cnt n ψ) = ψ := by
  funext c
  unfold group_split group_sites
  rw [Equiv.symm_apply_apply]

/-- C7: applying `group_sites(n)` and then `group_split` (with a sufficient
`chi_max`) reproduces the original state: the round-tripped state has overlap
1 with the original normalized state, and grouping preserves the overlap with
any reference state. -/
theorem C7_group_roundtrip (cnt n : ℕ) (ψ : QState K (cnt * n) d)
    (hnorm : overlapQ ψ ψ = 1) :
    overlapQ (group_split cnt n (group_sites cnt n ψ)) ψ = 1
      ∧ (∀ φ : QState K (cnt * n) d,
          overlapG (group_sites cnt n φ) (group_sites cnt n ψ) = overlapQ φ ψ) := by
  constructor
  · rw [group_split_group_sites, hnorm]
  · intro φ
    exact overlapG_group_sites cnt n φ ψ

/-- Witness for C7 at a concrete normalized two-site basis state over `ℤ`,
grouped into a single two-site block. -/
theorem C7_witness :
    overlapQ (group_split 1 2 (group_sites 1 2
        (fun c : Fin (1 * 2) → Fin 2 => if c = (fun _ => 0) then (1:ℤ) else 0)))
      (fun c : Fin (1 * 2) → Fin 2 => if c = (fun _ => 0) then (1:ℤ) else 0) = 1 :=
  (C7_group_roundtrip 1 2
    (fun c : Fin (1 * 2) → Fin 2 => if c = (fun _ => 0) then (1:ℤ) else 0)
    (by decide)).1

end Grouping

/-- The TEBD driver stub from `src/tenpy/algorithms/tebd.py`: its body is only
a docstring, so it returns `None` and leaves its argument untouched. -/
def time_evolution {α β : Type} (psi : α) (TEBD_params : β) : Option Unit × α :=
  (none, psi)

/-- C10: `time_evolution(psi, TEBD_params)` performs no computation — it
returns `None` and leaves `psi` (and any other state) unchanged. -/
theorem C10_time_evolution_noop (psi : MPS K L d) (TEBD_params : List (String × ℤ)) :
    time_evolution psi TEBD_params = (none, psi) := rfl

end Tenpy
